import Mathlib

/-!
# Translation resolution of the `lang` package

A shallow embedding of `language.go`, `locales.go`, `manager.go`, `player.go`
and `placeholders.go`, followed by the properties of the translation engine.

Modelling decisions.

* A Go `string` is a finite sequence of bytes (`GoString`).  String literals
  are taken through their UTF-8 encoding, as the Go compiler stores them.
* A Go `map[string]V` is a list of entries with pairwise distinct keys
  (`GoMap V`); the nil map and the empty map are both `[]`.  The order of the
  list is the order in which a `range` statement enumerates the map, which Go
  leaves unspecified: a statement about "every enumeration order" quantifies
  over the lists.
* `*Language` is `Option Language` (`none` is the nil pointer).  A `Language`
  is never mutated after construction, so an object is identified with its
  contents.
* The `sync.RWMutex` is not modelled: every method body runs atomically.
* A `*slog.Logger` is modelled by the list of records it has received.
* A panic is an `Except.error`.
-/

namespace Lang

/-- A Go `string`: an immutable sequence of bytes. -/
abbrev GoString := List UInt8

/-- The bytes of a string literal (UTF-8). -/
def bytes (s : String) : GoString := s.toUTF8.data.toList

/-- The value carried by a Go panic. -/
abbrev Panic := String

deriving instance DecidableEq for Except

/-! ## Go maps -/

/-- A Go `map[string]V`: entries with pairwise distinct keys. -/
abbrev GoMap (V : Type) := List (GoString × V)

namespace GoMap

variable {V : Type}

/-- The index expression `v, ok := m[k]`, with `none` for `ok == false`. -/
def get : GoMap V → GoString → Option V
  | [], _ => none
  | (k', v) :: rest, k => if k' = k then some v else get rest k

/-- The assignment `m[k] = v`: overwrites the entry of `k` or adds one. -/
def set : GoMap V → GoString → V → GoMap V
  | [], k, v => [(k, v)]
  | (k', v') :: rest, k, v =>
    if k' = k then (k, v) :: rest else (k', v') :: set rest k v

/-- The builtin `delete(m, k)`. -/
def delete : GoMap V → GoString → GoMap V
  | [], _ => []
  | (k', v) :: rest, k => if k' = k then delete rest k else (k', v) :: delete rest k

/-- The keys of the map, in entry order. -/
def keys (m : GoMap V) : List GoString := m.map Prod.fst

/-- The representation invariant of a map: no key occurs twice. -/
abbrev WF (m : GoMap V) : Prop := (keys m).Nodup

end GoMap

/-! ## `strings.Replacer` (Go standard library)

`strings.NewReplacer(oldnew...)` takes `old, new` pairs.  Its documentation:
"Replacements are performed in the order they appear in the target string,
without overlapping matches.  The old string comparisons are done in argument
order."  The definitions follow the generic algorithm of the library
(`genericReplacer.lookup` and `genericReplacer.WriteString`); the specialised
replacers the library selects for some argument shapes compute the same
function. -/

/-- A `*strings.Replacer`: the argument list it was built from. -/
structure Replacer where
  oldnew : List GoString
deriving DecidableEq

/-- `strings.NewReplacer`: panics on an odd number of arguments. -/
def NewReplacer (oldnew : List GoString) : Except Panic Replacer :=
  if oldnew.length % 2 = 1 then .error "strings.NewReplacer: odd argument count"
  else .ok ⟨oldnew⟩

namespace Replacer

/-- `genericReplacer.lookup(s, ignoreRoot)`: among the old strings that are a
prefix of `s`, the one of highest priority, that is the first in argument
order; returns its new string and the length of the old string.  With
`ignoreRoot` the empty old string is not considered. -/
def lookup : List GoString → GoString → Bool → Option (GoString × Nat)
  | old :: new :: rest, s, ignoreRoot =>
    if old.isPrefixOf s && !(ignoreRoot && old.isEmpty) then some (new, old.length)
    else lookup rest s ignoreRoot
  | _, _, _ => none

/-- The loop of `genericReplacer.WriteString` from position `i` on, where the
first argument is `s[i:]` and `skip` counts the bytes of it that the last
match still covers (the loop's `i += keylen`).  An empty match at `i` sets
`prevMatchEmpty`, so that the next iteration, at the same `i`, looks up with
`ignoreRoot`; an iteration without a match copies `s[i]`. -/
def write (oldnew : List GoString) : GoString → Nat → GoString
  | [], _ =>
    match lookup oldnew [] false with
    | some (val, _) => val
    | none => []
  | _ :: cs, skip + 1 => write oldnew cs skip
  | c :: cs, 0 =>
    match lookup oldnew (c :: cs) false with
    | none => c :: write oldnew cs 0
    | some (val, keylen + 1) => val ++ write oldnew cs keylen
    | some (val, 0) =>
      match lookup oldnew (c :: cs) true with
      | none => val ++ c :: write oldnew cs 0
      | some (val2, keylen2) => val ++ (val2 ++ write oldnew cs (keylen2 - 1))

/-- `(*Replacer).Replace`. -/
def Replace (r : Replacer) (s : GoString) : GoString := write r.oldnew s 0

end Replacer

/-! ## `log/slog` -/

/-- The level of a log record. -/
inductive Level
  | Info
  | Warn
  | Error
deriving DecidableEq

/-- One record handed to the logger: level, message, attributes. -/
structure LogRecord where
  level : Level
  msg : String
  attrs : List (String × GoString)
deriving DecidableEq

/-- A `*slog.Logger` (never nil inside a Manager): the records it received. -/
abbrev Logger := List LogRecord

/-! ## language.go -/

/-- The struct `Language`. -/
structure Language where
  locale : GoString
  name : GoString
  translations : GoMap GoString
deriving DecidableEq

/-- `NewLanguageFromData(locale, name, translations)`. -/
def NewLanguageFromData (locale name : GoString) (translations : GoMap GoString) :
    Language :=
  { locale := locale, name := name, translations := translations }

namespace Language

/-- `(*Language).Locale`. -/
def Locale (l : Language) : GoString := l.locale

/-- `(*Language).Name`. -/
def Name (l : Language) : GoString := l.name

/-- `(*Language).translation`: `val, ok := l.translations[key]`; `val` is the
zero value `""` when the key is missing. -/
def translation (l : Language) (key : GoString) : GoString × Bool :=
  match l.translations.get key with
  | some val => (val, true)
  | none => ([], false)

end Language

/-! ## locales.go -/

/-- The set `MinecraftLocales`, a `map[string]struct{}`. -/
def MinecraftLocales : GoMap Unit :=
  ["en_US", "en_GB", "de_DE", "es_ES", "es_MX", "fr_FR",
   "fr_CA", "it_IT", "ja_JP", "ko_KR", "pt_BR", "pt_PT",
   "ru_RU", "zh_CN", "zh_TW", "nl_NL", "bg_BG", "cs_CZ",
   "da_DK", "el_GR", "fi_FI", "hu_HU", "id_ID", "nb_NO",
   "pl_PL", "sk_SK", "sv_SE", "tr_TR", "uk_UA"].map (fun s => (bytes s, ()))

/-- `IsMinecraftLocale(locale)`: `_, ok := MinecraftLocales[locale]`. -/
def IsMinecraftLocale (locale : GoString) : Bool :=
  (MinecraftLocales.get locale).isSome

/-! ## `path/filepath` and `strings` (Go standard library), with the
separator `/` -/

/-- `filepath.Ext(path)`: the suffix that starts at the last dot of the last
element of the path, or `""` when that element has no dot. -/
def filepath.Ext (path : GoString) : GoString :=
  let seg := path.reverse.takeWhile (fun c => c != 47)
  if seg.contains 46 then 46 :: (seg.takeWhile (fun c => c != 46)).reverse else []

/-- `filepath.Base(path)`: the last element of the path, trailing separators
removed; `"."` for the empty path and `"/"` for a path of separators only. -/
def filepath.Base (path : GoString) : GoString :=
  if path = [] then [46]
  else
    let stripped := path.reverse.dropWhile (fun c => c == 47)
    let last := (stripped.takeWhile (fun c => c != 47)).reverse
    if last = [] then [47] else last

/-- `strings.TrimSuffix(s, suffix)`. -/
def strings.TrimSuffix (s suffix : GoString) : GoString :=
  if suffix.isSuffixOf s then s.take (s.length - suffix.length) else s

/-! ## language.go: loading a file -/

/-- What `LoadLanguageFile` calls outside the package: `os.ReadFile`,
`json.Unmarshal` and `yaml.Unmarshal` into a `map[string]string`. -/
structure Host where
  readFile : GoString → Except String GoString
  jsonUnmarshal : GoString → Except String (GoMap GoString)
  yamlUnmarshal : GoString → Except String (GoMap GoString)

/-- The errors `LoadLanguageFile` returns. -/
inductive LoadError
  /-- Message "could not read language file %s: %w". -/
  | read (path : GoString) (err : String)
  /-- Message "locale '%s' derived from filename is not a valid Minecraft locale". -/
  | invalidLocale (locale : GoString)
  /-- Message "failed to decode JSON from %s: %w". -/
  | decodeJSON (path : GoString) (err : String)
  /-- Message "failed to decode YAML from %s: %w". -/
  | decodeYAML (path : GoString) (err : String)
  /-- Message "unsupported file format: %s". -/
  | unsupportedFormat (ext : GoString)
  /-- Message "language file %s is missing the required 'language.name' key". -/
  | missingName (path : GoString)
deriving DecidableEq

/-- Lines 60 to 66 of `LoadLanguageFile`: what follows the decoding. -/
def LoadLanguageFile.finish (path locale : GoString) (translations : GoMap GoString) :
    Except LoadError Language :=
  match translations.get (bytes "language.name") with
  | none => .error (.missingName path)
  | some langName =>
    .ok (NewLanguageFromData locale langName (translations.delete (bytes "language.name")))

/-- `LoadLanguageFile(path)`. -/
def LoadLanguageFile (host : Host) (path : GoString) : Except LoadError Language :=
  match host.readFile path with
  | .error err => .error (.read path err)
  | .ok data =>
    let ext := filepath.Ext path
    let locale := strings.TrimSuffix (filepath.Base path) ext
    if !IsMinecraftLocale locale then .error (.invalidLocale locale)
    else if ext = bytes ".json" then
      match host.jsonUnmarshal data with
      | .error err => .error (.decodeJSON path err)
      | .ok translations => LoadLanguageFile.finish path locale translations
    else if ext = bytes ".yml" ∨ ext = bytes ".yaml" then
      match host.yamlUnmarshal data with
      | .error err => .error (.decodeYAML path err)
      | .ok translations => LoadLanguageFile.finish path locale translations
    else .error (.unsupportedFormat ext)

/-! ## player.go, placeholders.go -/

/-- A value of the interface type `Player`: the nil interface, or an
implementation, of which only the locale it reports matters. -/
inductive Player
  | nil
  | impl (locale : GoString)
deriving DecidableEq

/-- The method call `p.Locale()`; on the nil interface it panics. -/
def Player.Locale : Player → Except Panic GoString
  | .nil => .error "invalid memory address or nil pointer dereference"
  | .impl locale => .ok locale

/-- The type `P`, `map[string]string`. -/
abbrev P := GoMap GoString

/-! ## manager.go -/

/-- The errors `Register` and `SetDefault` build with `fmt.Errorf`. -/
inductive Error
  /-- Message "language and its locale cannot be nil or empty". -/
  | nilOrEmpty
  /-- Message "cannot set default to an unregistered language: %s". -/
  | unregistered (locale : GoString)
deriving DecidableEq

/-- The struct `Manager` (without its mutex). -/
structure Manager where
  languages : GoMap Language
  defaultLang : Option Language
  logger : Logger
deriving DecidableEq

/-- `NewManager(logger)`: a nil logger is replaced by a fresh one. -/
def NewManager (logger : Option Logger) : Manager :=
  { languages := [], defaultLang := none, logger := logger.getD [] }

namespace Manager

/-- A call of `m.logger.Info`, `Warn` or `Error`. -/
def log (m : Manager) (level : Level) (msg : String) (attrs : List (String × GoString)) :
    Manager :=
  { m with logger := m.logger ++ [{ level := level, msg := msg, attrs := attrs }] }

/-- `(*Manager).Register`: the returned error (`none` is nil) and the state
after the call. -/
def Register (m : Manager) (lang : Option Language) : Option Error × Manager :=
  match lang with
  | none => (some .nilOrEmpty, m)
  | some l =>
    if l.Locale = [] then (some .nilOrEmpty, m)
    else
      let m1 := { m with languages := m.languages.set l.Locale l }
      match m1.defaultLang with
      | none =>
        (none, ({ m1 with defaultLang := some l }).log .Info
          "Default language set automatically" [("locale", l.Locale)])
      | some _ => (none, m1)

/-- `(*Manager).SetDefault`. -/
def SetDefault (m : Manager) (locale : GoString) : Option Error × Manager :=
  match m.languages.get locale with
  | none => (some (.unregistered locale), m)
  | some lang => (none, { m with defaultLang := some lang })

/-- `(*Manager).Language`: `lang, ok := m.languages[locale]`. -/
def Language (m : Manager) (locale : GoString) : Option Lang.Language × Bool :=
  match m.languages.get locale with
  | some lang => (some lang, true)
  | none => (none, false)

/-- `(*Manager).Languages`: the values of the registry in enumeration order. -/
def Languages (m : Manager) : List Lang.Language :=
  m.languages.foldl (fun langs e => langs ++ [e.2]) []

/-- The argument list `Translate` builds for `strings.NewReplacer`:
`args = append(args, k, v)` for every entry of the placeholder map. -/
def replacerArgs (placeholders : P) : List GoString :=
  placeholders.foldl (fun args e => args ++ [e.1, e.2]) []

/-- `(*Manager).Translate`: the returned string (or the panic that leaves the
call) and the state after the call, which differs in the logger at most. -/
def Translate (m : Manager) (p : Player) (key : GoString) (placeholders : P) :
    Except Panic GoString × Manager :=
  match m.defaultLang with
  | none =>
    (.ok key, m.log .Error "Translation failed: no default language configured"
      [("key", key)])
  | some defaultLang =>
    match p.Locale with
    | .error e => (.error e, m)
    | .ok locale =>
      let r1 : GoString × Bool :=
        match m.languages.get locale with
        | some playerLang => playerLang.translation key
        | none => ([], false)
      let r2 : GoString × Bool := if !r1.2 then defaultLang.translation key else r1
      if !r2.2 then
        (.ok key, m.log .Warn "Translation key not found"
          [("key", key), ("fallback_locale", defaultLang.Locale)])
      else if placeholders.length > 0 then
        match NewReplacer (replacerArgs placeholders) with
        | .error e => (.error e, m)
        | .ok replacer => (.ok (replacer.Replace r2.1), m)
      else (.ok r2.1, m)

/-- Lines 95 to 105 of `Translate`, for a default language that is set: the
lookup in the caller's language, then the fallback to the default language;
returns the variables `text` and `found`. -/
def resolve (m : Manager) (defaultLang : Lang.Language) (locale key : GoString) :
    GoString × Bool :=
  let r1 : GoString × Bool :=
    match m.languages.get locale with
    | some playerLang => playerLang.translation key
    | none => ([], false)
  if !r1.2 then defaultLang.translation key else r1

end Manager

/-- Simultaneous substitution as a relation between a text and an output: the
output consists of copied bytes of the text and of values of placeholders
whose token stands at that place of the text.  What follows an inserted value
comes from the text that follows the token: an inserted value is not scanned. -/
inductive Simultaneous (ph : P) : GoString → GoString → Prop
  | done : Simultaneous ph [] []
  | copy (c : UInt8) {s o : GoString} :
      Simultaneous ph s o → Simultaneous ph (c :: s) (c :: o)
  | replace {tok val s o : GoString} :
      (tok, val) ∈ ph → Simultaneous ph s o → Simultaneous ph (tok ++ s) (val ++ o)

/-! ## States used in the examples -/

/-- A Manager state with one registered Language, which is the default. -/
def Manager.single (L : Lang.Language) : Manager :=
  { languages := [(L.Locale, L)], defaultLang := some L, logger := [] }

/-- A Language of locale "en_US" with the given translations. -/
def english (translations : GoMap GoString) : Language :=
  NewLanguageFromData (bytes "en_US") (bytes "English (US)") translations

/-! ## Sequences of administrative calls -/

/-- A call of one of the two mutating methods of a Manager. -/
inductive Call
  | Register (lang : Option Language)
  | SetDefault (locale : GoString)
deriving DecidableEq

/-- The state after one call, whatever error it returned. -/
def Manager.step (m : Manager) : Call → Manager
  | .Register lang => (m.Register lang).2
  | .SetDefault locale => (m.SetDefault locale).2

/-- The state after a sequence of calls, applied from left to right. -/
def Manager.run (m : Manager) (calls : List Call) : Manager :=
  calls.foldl Manager.step m

/-! ## Lookup and fallback in `Translate` -/

section Lookup

/-- C1: with a default language set, a caller whose locale is registered to a
Language that maps the key to `t` gets exactly `t` (empty or nil placeholder
set), whatever the default language maps the key to. -/
theorem translate_own_language_wins (m : Manager) (D L : Language) (k t : GoString)
    (hD : m.defaultLang = some D)
    (hL : m.languages.get L.Locale = some L)
    (ht : L.translations.get k = some t) :
    (m.Translate (.impl L.Locale) k []).1 = .ok t := by
  simp [Manager.Translate, Player.Locale, hD, hL, Language.translation, ht]

/-- Witness of C1: the default maps the key to another text. -/
theorem translate_own_language_wins_witness :
    (Manager.Translate
        { languages := [(bytes "en_US", ⟨bytes "en_US", bytes "English", [(bytes "hi", bytes "Hello")]⟩),
                        (bytes "es_ES", ⟨bytes "es_ES", bytes "Spanish", [(bytes "hi", bytes "Hola")]⟩)],
          defaultLang := some ⟨bytes "en_US", bytes "English", [(bytes "hi", bytes "Hello")]⟩,
          logger := [] }
        (.impl (bytes "es_ES")) (bytes "hi") []).1 = .ok (bytes "Hola") :=
  translate_own_language_wins _ ⟨bytes "en_US", bytes "English", [(bytes "hi", bytes "Hello")]⟩
    ⟨bytes "es_ES", bytes "Spanish", [(bytes "hi", bytes "Hola")]⟩ (bytes "hi") (bytes "Hola")
    rfl (by decide) (by decide)

/-- C2: with default language `D` mapping the key to `t`, a caller whose
locale is unregistered, or registered to a Language without the key, gets
`t` (empty or nil placeholder set). -/
theorem translate_falls_back_to_default (m : Manager) (D : Language) (locale k t : GoString)
    (hD : m.defaultLang = some D)
    (ht : D.translations.get k = some t)
    (hmiss : m.languages.get locale = none ∨
      ∃ L, m.languages.get locale = some L ∧ L.translations.get k = none) :
    (m.Translate (.impl locale) k []).1 = .ok t := by
  rcases hmiss with h | ⟨L, hL, hk⟩
  · simp [Manager.Translate, Player.Locale, hD, h, Language.translation, ht]
  · simp [Manager.Translate, Player.Locale, hD, hL, Language.translation, ht, hk]

/-- Witness of C2: the caller's language is registered and lacks the key. -/
theorem translate_falls_back_to_default_witness :
    (Manager.Translate
        { languages := [(bytes "en_US", ⟨bytes "en_US", bytes "English", [(bytes "hi", bytes "Hello")]⟩),
                        (bytes "es_ES", ⟨bytes "es_ES", bytes "Spanish", [(bytes "bye", bytes "Adios")]⟩)],
          defaultLang := some ⟨bytes "en_US", bytes "English", [(bytes "hi", bytes "Hello")]⟩,
          logger := [] }
        (.impl (bytes "es_ES")) (bytes "hi") []).1 = .ok (bytes "Hello") :=
  translate_falls_back_to_default _ ⟨bytes "en_US", bytes "English", [(bytes "hi", bytes "Hello")]⟩
    (bytes "es_ES") (bytes "hi") (bytes "Hello") rfl (by decide)
    (Or.inr ⟨⟨bytes "es_ES", bytes "Spanish", [(bytes "bye", bytes "Adios")]⟩, by decide, by decide⟩)

/-- C3: with a default language set, a key missing from the default language
and from the caller's language (or the caller's locale is unregistered) is
returned as it is, for every placeholder set: no substitution is applied. -/
theorem translate_missing_key_returns_key (m : Manager) (D : Language)
    (locale k : GoString) (placeholders : P)
    (hD : m.defaultLang = some D)
    (hk : D.translations.get k = none)
    (hmiss : m.languages.get locale = none ∨
      ∃ L, m.languages.get locale = some L ∧ L.translations.get k = none) :
    (m.Translate (.impl locale) k placeholders).1 = .ok k := by
  rcases hmiss with h | ⟨L, hL, hLk⟩
  · simp [Manager.Translate, Player.Locale, hD, h, Language.translation, hk]
  · simp [Manager.Translate, Player.Locale, hD, hL, Language.translation, hk, hLk]

/-- Witness of C3: the placeholder token occurs inside the key. -/
theorem translate_missing_key_returns_key_witness :
    (Manager.Translate
        { languages := [(bytes "en_US", ⟨bytes "en_US", bytes "English", [(bytes "hi", bytes "Hello")]⟩)],
          defaultLang := some ⟨bytes "en_US", bytes "English", [(bytes "hi", bytes "Hello")]⟩,
          logger := [] }
        (.impl (bytes "fr_FR")) (bytes "bye.{name}") [(bytes "{name}", bytes "Alex")]).1
      = .ok (bytes "bye.{name}") :=
  translate_missing_key_returns_key _ ⟨bytes "en_US", bytes "English", [(bytes "hi", bytes "Hello")]⟩
    (bytes "fr_FR") (bytes "bye.{name}") [(bytes "{name}", bytes "Alex")] rfl (by decide)
    (Or.inl (by decide))

/-- C4: without a default language, `Translate` returns the key for every
caller (the nil interface included: `Locale` is not called), key and
placeholder set, and logs one record at error level. -/
theorem translate_without_default (m : Manager) (p : Player) (key : GoString)
    (placeholders : P) (hD : m.defaultLang = none) :
    m.Translate p key placeholders =
      (.ok key, m.log .Error "Translation failed: no default language configured"
        [("key", key)]) := by
  simp [Manager.Translate, hD]

/-- Witness of C4: a fresh Manager, the nil caller, a token occurring in the key. -/
theorem translate_without_default_witness :
    (NewManager none).Translate .nil (bytes "hi {name}") [(bytes "{name}", bytes "Alex")] =
      (.ok (bytes "hi {name}"),
        (NewManager none).log .Error "Translation failed: no default language configured"
          [("key", bytes "hi {name}")]) :=
  translate_without_default (NewManager none) .nil (bytes "hi {name}")
    [(bytes "{name}", bytes "Alex")] rfl

end Lookup

/-! ## Registration and the default language -/

section Registration

/-- A `Register` call that returns an error leaves the Manager as it was. -/
theorem register_error_state (m : Manager) (x : Option Language)
    (h : (m.Register x).1 ≠ none) : (m.Register x).2 = m := by
  cases x with
  | none => rfl
  | some l =>
    by_cases hl : l.Locale = []
    · simp [Manager.Register, hl]
    · cases hd : m.defaultLang <;> simp [Manager.Register, hl, hd] at h

/-- Whether `Register` returns an error does not depend on the Manager. -/
theorem register_error_indep (m m' : Manager) (x : Option Language) :
    (m.Register x).1 = (m'.Register x).1 := by
  cases x with
  | none => rfl
  | some l =>
    by_cases hl : l.Locale = []
    · simp [Manager.Register, hl]
    · cases hd : m.defaultLang <;> cases hd' : m'.defaultLang <;>
        simp [Manager.Register, hl, hd, hd']

/-- Once a default language is set, `Register` does not change it. -/
theorem register_keeps_default (m : Manager) (x : Option Language) (d : Language)
    (hd : m.defaultLang = some d) : (m.Register x).2.defaultLang = some d := by
  cases x with
  | none => exact hd
  | some l =>
    by_cases hl : l.Locale = []
    · simp [Manager.Register, hl, hd]
    · simp [Manager.Register, hl, hd]

/-- A sequence of failing `Register` calls leaves the Manager as it was. -/
theorem run_failing_registers (m : Manager) (pre : List (Option Language))
    (hpre : ∀ x ∈ pre, (m.Register x).1 ≠ none) :
    m.run (pre.map .Register) = m := by
  induction pre with
  | nil => rfl
  | cons x xs ih =>
    have hx : (m.Register x).2 = m := register_error_state m x (hpre x (by simp))
    have hxs : ∀ y ∈ xs, (m.Register y).1 ≠ none := fun y hy => hpre y (by simp [hy])
    simpa [Manager.run, Manager.step, hx] using ih hxs

/-- A sequence of `Register` calls does not change a default that is set. -/
theorem run_registers_keep_default (m : Manager) (post : List (Option Language))
    (d : Language) (hd : m.defaultLang = some d) :
    (m.run (post.map .Register)).defaultLang = some d := by
  induction post generalizing m with
  | nil => exact hd
  | cons x xs ih =>
    have := ih (m.Register x).2 (register_keeps_default m x d hd)
    simpa [Manager.run, Manager.step] using this

/-- C5: in a sequence of `Register` calls on a fresh Manager, the argument of
the first call that returns no error is the default language after the whole
sequence, whatever is registered after it (other locales or the same one). -/
theorem first_registered_is_default (logger : Option Logger)
    (pre post : List (Option Language)) (L : Option Language)
    (hpre : ∀ x ∈ pre, ((NewManager logger).Register x).1 ≠ none)
    (hL : ((NewManager logger).Register L).1 = none) :
    ((NewManager logger).run ((pre ++ L :: post).map .Register)).defaultLang = L := by
  have h1 : (NewManager logger).run ((pre ++ L :: post).map .Register) =
      (((NewManager logger).run (pre.map .Register)).Register L).2.run
        (post.map .Register) := by
    simp [Manager.run, Manager.step, List.foldl_append]
  rw [h1, run_failing_registers _ pre hpre]
  cases L with
  | none => simp [Manager.Register] at hL
  | some l =>
    apply run_registers_keep_default
    by_cases hl : l.Locale = []
    · simp [Manager.Register, hl] at hL
    · simp [Manager.Register, NewManager, hl, Manager.log]

/-- Witness of C5: a nil and an anonymous Language are refused, then two
Languages of the same locale and one of another locale are registered. -/
theorem first_registered_is_default_witness :
    ((NewManager none).run
      [.Register none,
       .Register (some ⟨bytes "", bytes "Anonymous", []⟩),
       .Register (some ⟨bytes "en_US", bytes "English", [(bytes "hi", bytes "Hello")]⟩),
       .Register (some ⟨bytes "en_US", bytes "English", [(bytes "hi", bytes "Howdy")]⟩),
       .Register (some ⟨bytes "es_ES", bytes "Spanish", [(bytes "hi", bytes "Hola")]⟩)]).defaultLang
      = some ⟨bytes "en_US", bytes "English", [(bytes "hi", bytes "Hello")]⟩ :=
  first_registered_is_default none
    [none, some ⟨bytes "", bytes "Anonymous", []⟩]
    [some ⟨bytes "en_US", bytes "English", [(bytes "hi", bytes "Howdy")]⟩,
     some ⟨bytes "es_ES", bytes "Spanish", [(bytes "hi", bytes "Hola")]⟩]
    (some ⟨bytes "en_US", bytes "English", [(bytes "hi", bytes "Hello")]⟩)
    (by decide) (by decide)

/-- C6, evaluated: after registering two Languages of one locale on a fresh
Manager, the default language is the first one, while the registry holds the
second one under that locale: the default is not a value of the registry. -/
theorem default_not_in_registry_after_overwrite :
    (((NewManager none).run
      [.Register (some ⟨bytes "en_US", bytes "English", [(bytes "hi", bytes "Hello")]⟩),
       .Register (some ⟨bytes "en_US", bytes "English", [(bytes "hi", bytes "Howdy")]⟩)]).defaultLang
      = some ⟨bytes "en_US", bytes "English", [(bytes "hi", bytes "Hello")]⟩) ∧
    (((NewManager none).run
      [.Register (some ⟨bytes "en_US", bytes "English", [(bytes "hi", bytes "Hello")]⟩),
       .Register (some ⟨bytes "en_US", bytes "English", [(bytes "hi", bytes "Howdy")]⟩)]).languages
      = [(bytes "en_US", ⟨bytes "en_US", bytes "English", [(bytes "hi", bytes "Howdy")]⟩)]) := by
  decide

end Registration

/-! ## The replacer `Translate` builds -/

section ReplacerArgs

/-- The loop that builds the argument list appends to what it has. -/
theorem replacerArgs_foldl (ph : P) (acc : List GoString) :
    ph.foldl (fun args e => args ++ [e.1, e.2]) acc = acc ++ Manager.replacerArgs ph := by
  induction ph generalizing acc with
  | nil => simp [Manager.replacerArgs]
  | cons e es ih =>
    simp only [Manager.replacerArgs, List.foldl_cons, List.nil_append]
    rw [ih (acc ++ [e.1, e.2]), ih [e.1, e.2]]
    simp

/-- The argument list of a non-empty placeholder enumeration. -/
theorem replacerArgs_cons (e : GoString × GoString) (ph : P) :
    Manager.replacerArgs (e :: ph) = e.1 :: e.2 :: Manager.replacerArgs ph := by
  have := replacerArgs_foldl ph [e.1, e.2]
  simpa [Manager.replacerArgs] using this

/-- The argument list has two strings for every placeholder. -/
theorem replacerArgs_length (ph : P) : (Manager.replacerArgs ph).length = 2 * ph.length := by
  induction ph with
  | nil => rfl
  | cons e es ih => rw [replacerArgs_cons]; simp [ih]; omega

/-- The constructor `strings.NewReplacer` does not panic on the argument list. -/
theorem newReplacer_replacerArgs (ph : P) :
    NewReplacer (Manager.replacerArgs ph) = .ok ⟨Manager.replacerArgs ph⟩ := by
  have h : (Manager.replacerArgs ph).length % 2 ≠ 1 := by
    rw [replacerArgs_length]; omega
  simp [NewReplacer, h]

/-- The lookup of the replacer, read off the placeholder enumeration: the
first placeholder whose token is a prefix of `s` decides. -/
theorem lookup_replacerArgs_cons (e : GoString × GoString) (ph : P) (s : GoString)
    (ig : Bool) :
    Replacer.lookup (Manager.replacerArgs (e :: ph)) s ig =
      if (e.1.isPrefixOf s && !(ig && e.1.isEmpty)) = true then some (e.2, e.1.length)
      else Replacer.lookup (Manager.replacerArgs ph) s ig := by
  rw [replacerArgs_cons, Replacer.lookup]

/-- The test of one old string in the lookup, as a proposition. -/
theorem lookup_test_iff (tok s : GoString) (ig : Bool) :
    (tok.isPrefixOf s && !(ig && tok.isEmpty)) = true ↔
      tok <+: s ∧ ¬ (ig = true ∧ tok = []) := by
  rw [Bool.and_eq_true, List.isPrefixOf_iff_prefix]
  cases ig <;> cases tok <;> simp

/-- A successful lookup names a placeholder whose token is a prefix of `s`. -/
theorem lookup_some (ph : P) (s : GoString) (ig : Bool) (val : GoString) (n : Nat)
    (h : Replacer.lookup (Manager.replacerArgs ph) s ig = some (val, n)) :
    ∃ tok, (tok, val) ∈ ph ∧ tok <+: s ∧ n = tok.length ∧ ¬ (ig = true ∧ tok = []) := by
  induction ph with
  | nil => simp [Manager.replacerArgs, Replacer.lookup] at h
  | cons e es ih =>
    rw [lookup_replacerArgs_cons] at h
    by_cases hc : (e.1.isPrefixOf s && !(ig && e.1.isEmpty)) = true
    · rw [if_pos hc] at h
      simp only [Option.some.injEq, Prod.mk.injEq] at h
      have hc' := (lookup_test_iff _ _ _).mp hc
      refine ⟨e.1, ?_, hc'.1, h.2.symm, hc'.2⟩
      rw [← h.1]; exact List.mem_cons_self _ _
    · rw [if_neg hc] at h
      obtain ⟨tok, hmem, hrest⟩ := ih h
      exact ⟨tok, List.mem_cons_of_mem _ hmem, hrest⟩

/-- A failing lookup: no token (no non-empty one with `ignoreRoot`) is a
prefix of `s`. -/
theorem lookup_none (ph : P) (s : GoString) (ig : Bool)
    (h : Replacer.lookup (Manager.replacerArgs ph) s ig = none) :
    ∀ e ∈ ph, e.1 <+: s → ig = true ∧ e.1 = [] := by
  induction ph with
  | nil => intro e he; simp at he
  | cons e es ih =>
    rw [lookup_replacerArgs_cons] at h
    by_cases hc : (e.1.isPrefixOf s && !(ig && e.1.isEmpty)) = true
    · rw [if_pos hc] at h; simp at h
    · rw [if_neg hc] at h
      intro e' he' hpre
      rcases List.mem_cons.mp he' with rfl | hmem
      · by_contra hcon
        exact hc ((lookup_test_iff _ _ _).mpr ⟨hpre, hcon⟩)
      · exact ih h e' hmem hpre

/-- The lookup only depends on which tokens are a prefix of the string. -/
theorem lookup_congr (ph : P) (s s' : GoString) (ig : Bool)
    (h : ∀ e ∈ ph, (e.1 <+: s ↔ e.1 <+: s')) :
    Replacer.lookup (Manager.replacerArgs ph) s ig =
      Replacer.lookup (Manager.replacerArgs ph) s' ig := by
  induction ph with
  | nil => simp [Manager.replacerArgs, Replacer.lookup]
  | cons e es ih =>
    have he : ((e.1.isPrefixOf s && !(ig && e.1.isEmpty)) = true) ↔
        ((e.1.isPrefixOf s' && !(ig && e.1.isEmpty)) = true) := by
      rw [lookup_test_iff, lookup_test_iff, h e (List.mem_cons_self _ _)]
    rw [lookup_replacerArgs_cons, lookup_replacerArgs_cons,
      ih (fun e' he' => h e' (List.mem_cons_of_mem _ he'))]
    by_cases hc : (e.1.isPrefixOf s && !(ig && e.1.isEmpty)) = true
    · rw [if_pos hc, if_pos (he.mp hc)]
    · rw [if_neg hc, if_neg (fun h' => hc (he.mpr h'))]

/-- In a map, a key has one value. -/
theorem GoMap.value_unique {V : Type} (m : GoMap V) (hwf : m.WF) (k : GoString) (v v' : V)
    (h : (k, v) ∈ m) (h' : (k, v') ∈ m) : v = v' := by
  induction m with
  | nil => simp at h
  | cons e es ih =>
    have hnd : e.1 ∉ GoMap.keys es ∧ (GoMap.keys es).Nodup := by
      simpa [GoMap.WF, GoMap.keys] using hwf
    have hkey : ∀ w, (k, w) ∈ es → k ∈ GoMap.keys es := fun w hw =>
      List.mem_map.mpr ⟨(k, w), hw, rfl⟩
    rcases List.mem_cons.mp h with rfl | hmem <;> rcases List.mem_cons.mp h' with h2 | hmem'
    · exact (Prod.mk.inj h2).2.symm
    · exact absurd (hkey _ hmem') hnd.1
    · subst h2; exact absurd (hkey _ hmem) hnd.1
    · exact ih hnd.2 hmem hmem'

/-- When `tok` is the only token that is a prefix of `s`, the lookup finds
its value. -/
theorem lookup_unique (ph : P) (hwf : GoMap.WF ph) (s tok val : GoString)
    (hmem : (tok, val) ∈ ph) (hpre : tok <+: s)
    (huniq : ∀ e ∈ ph, e.1 <+: s → e.1 = tok) :
    Replacer.lookup (Manager.replacerArgs ph) s false = some (val, tok.length) := by
  rcases hl : Replacer.lookup (Manager.replacerArgs ph) s false with _ | ⟨val', n⟩
  · have := lookup_none ph s false hl (tok, val) hmem hpre
    simp at this
  · obtain ⟨tok', hmem', hpre', hn, _⟩ := lookup_some ph s false val' n hl
    have ht : tok' = tok := huniq (tok', val') hmem' hpre'
    subst ht
    rw [GoMap.value_unique ph hwf tok' val' val hmem' hmem, hn]

end ReplacerArgs

/-! ## The scan of `Replace` -/

section Scan

/-- At the end of the string only an empty old string can match. -/
theorem write_nil (oldnew : List GoString) (skip : Nat)
    (h : Replacer.lookup oldnew [] false = none) : Replacer.write oldnew [] skip = [] := by
  rw [Replacer.write, h]

/-- Without a match at a position the byte there is copied. -/
theorem write_cons_none (oldnew : List GoString) (c : UInt8) (cs : GoString)
    (h : Replacer.lookup oldnew (c :: cs) false = none) :
    Replacer.write oldnew (c :: cs) 0 = c :: Replacer.write oldnew cs 0 := by
  rw [Replacer.write, h]

/-- The bytes a match covers are skipped. -/
theorem write_skip (oldnew : List GoString) (s : GoString) (k : Nat) (hk : k ≤ s.length) :
    Replacer.write oldnew s k = Replacer.write oldnew (s.drop k) 0 := by
  induction s generalizing k with
  | nil =>
    have : k = 0 := by simpa using hk
    subst this; rfl
  | cons c cs ih =>
    cases k with
    | zero => rfl
    | succ k =>
      rw [Replacer.write, List.drop_succ_cons]
      exact ih k (by simpa using hk)

/-- A match of a non-empty old string writes the new string and goes on
after the old one. -/
theorem write_match (oldnew : List GoString) (s val : GoString) (n : Nat)
    (h : Replacer.lookup oldnew s false = some (val, n)) (hpos : 0 < n)
    (hle : n ≤ s.length) :
    Replacer.write oldnew s 0 = val ++ Replacer.write oldnew (s.drop n) 0 := by
  cases s with
  | nil => simp at hle; omega
  | cons c cs =>
    obtain ⟨k, rfl⟩ : ∃ k, n = k + 1 := ⟨n - 1, by omega⟩
    rw [Replacer.write, h]
    simp only [List.drop_succ_cons]
    rw [write_skip oldnew cs k (by simpa using hle)]

/-- A replacer without arguments returns its input. -/
theorem write_no_args (s : GoString) : Replacer.write [] s 0 = s := by
  induction s with
  | nil => rfl
  | cons c cs ih => rw [write_cons_none [] c cs rfl, ih]

/-- When no token occurs in the string, the scan returns the string. -/
theorem write_no_occurrence (ph : P) (s : GoString) (h : ∀ e ∈ ph, ¬ e.1 <:+: s) :
    Replacer.write (Manager.replacerArgs ph) s 0 = s := by
  induction s with
  | nil =>
    apply write_nil
    rcases hl : Replacer.lookup (Manager.replacerArgs ph) [] false with _ | ⟨val, n⟩
    · rfl
    · obtain ⟨tok, hmem, hpre, _⟩ := lookup_some ph [] false val n hl
      exact absurd hpre.isInfix (h (tok, val) hmem)
  | cons c cs ih =>
    have hl : Replacer.lookup (Manager.replacerArgs ph) (c :: cs) false = none := by
      rcases hl : Replacer.lookup (Manager.replacerArgs ph) (c :: cs) false with _ | ⟨val, n⟩
      · rfl
      · obtain ⟨tok, hmem, hpre, _⟩ := lookup_some ph (c :: cs) false val n hl
        exact absurd hpre.isInfix (h (tok, val) hmem)
    rw [write_cons_none _ c cs hl, ih]
    intro e he hin
    exact h e he (hin.trans (List.suffix_cons c cs).isInfix)

/-- The scan of a string `u ++ r` is the scan of `u` followed by the scan of
`r`, when no token is empty and every token occurrence that starts inside `u`
ends inside `u`. -/
theorem write_append (ph : P) (hne : ∀ e ∈ ph, e.1 ≠ []) (u r : GoString)
    (hin : ∀ i, i < u.length → ∀ e ∈ ph, e.1 <+: (u ++ r).drop i →
      i + e.1.length ≤ u.length) :
    Replacer.write (Manager.replacerArgs ph) (u ++ r) 0 =
      Replacer.write (Manager.replacerArgs ph) u 0 ++
        Replacer.write (Manager.replacerArgs ph) r 0 := by
  obtain ⟨len, hlen⟩ : ∃ len, u.length = len := ⟨_, rfl⟩
  induction len using Nat.strong_induction_on generalizing u with
  | _ len ih =>
    cases u with
    | nil =>
      have h0 : Replacer.lookup (Manager.replacerArgs ph) [] false = none := by
        rcases hl : Replacer.lookup (Manager.replacerArgs ph) [] false with _ | ⟨val, n⟩
        · rfl
        · obtain ⟨tok, hmem, hpre, _⟩ := lookup_some ph [] false val n hl
          exact absurd (List.prefix_nil.mp hpre) (hne (tok, val) hmem)
      rw [write_nil _ 0 h0]; rfl
    | cons c cs =>
      have hcongr : Replacer.lookup (Manager.replacerArgs ph) (c :: cs ++ r) false =
          Replacer.lookup (Manager.replacerArgs ph) (c :: cs) false := by
        apply lookup_congr
        intro e he
        constructor
        · intro hp
          have := hin 0 (by simp) e he (by simpa using hp)
          exact List.prefix_of_prefix_length_le hp (List.prefix_append _ _) (by simpa using this)
        · intro hp
          exact hp.trans (List.prefix_append _ _)
      rcases hl : Replacer.lookup (Manager.replacerArgs ph) (c :: cs) false with _ | ⟨val, n⟩
      · rw [hl] at hcongr
        have hcs := ih cs.length (by rw [← hlen]; simp) cs (fun i hi e he hp =>
          by
            have := hin (i + 1) (by simpa using hi) e he (by simpa using hp)
            simp at this; omega) rfl
        rw [List.cons_append, write_cons_none _ c (cs ++ r) hcongr,
          write_cons_none _ c cs hl, hcs]; rfl
      · rw [hl] at hcongr
        obtain ⟨tok, hmem, hpre, hn, _⟩ := lookup_some ph (c :: cs) false val n hl
        have htok : tok ≠ [] := hne (tok, val) hmem
        have hpos : 0 < n := by rw [hn]; exact List.length_pos.mpr htok
        have hle : n ≤ (c :: cs).length := by rw [hn]; exact hpre.length_le
        have hdrop : (c :: cs ++ r).drop n = (c :: cs).drop n ++ r :=
          List.drop_append_of_le_length hle
        have hrec := ih ((c :: cs).drop n).length
          (by rw [← hlen, List.length_drop]; omega) ((c :: cs).drop n)
          (fun i hi e he hp => by
            rw [← hdrop, List.drop_drop] at hp
            rw [List.length_drop] at hi ⊢
            have := hin (n + i) (by omega) e he hp
            omega) rfl
        rw [write_match _ (c :: cs ++ r) val n hcongr hpos
            (by rw [List.length_append]; omega),
          write_match _ (c :: cs) val n hl hpos hle, hdrop, hrec, List.append_assoc]

/-- The output of the scan is a simultaneous substitution of the text. -/
theorem write_simultaneous (ph : P) (s : GoString) :
    Simultaneous ph s (Replacer.write (Manager.replacerArgs ph) s 0) := by
  obtain ⟨len, hlen⟩ : ∃ len, s.length = len := ⟨_, rfl⟩
  induction len using Nat.strong_induction_on generalizing s with
  | _ len ih =>
    cases s with
    | nil =>
      rw [Replacer.write]
      rcases hl : Replacer.lookup (Manager.replacerArgs ph) [] false with _ | ⟨val, n⟩
      · exact .done
      · obtain ⟨tok, hmem, hpre, _⟩ := lookup_some ph [] false val n hl
        have htok : tok = [] := List.prefix_nil.mp hpre
        subst htok
        have := Simultaneous.replace hmem (Simultaneous.done : Simultaneous ph [] [])
        simpa using this
    | cons c cs =>
      have hcs : Simultaneous ph cs (Replacer.write (Manager.replacerArgs ph) cs 0) :=
        ih cs.length (by rw [← hlen]; simp) cs rfl
      have hmatch : ∀ (ig : Bool) (val : GoString) (n : Nat),
          Replacer.lookup (Manager.replacerArgs ph) (c :: cs) ig = some (val, n) → 0 < n →
          Simultaneous ph (c :: cs)
            (val ++ Replacer.write (Manager.replacerArgs ph) cs (n - 1)) := by
        intro ig val n hl hpos
        obtain ⟨tok, hmem, ⟨w, hw⟩, hn, _⟩ := lookup_some ph (c :: cs) ig val n hl
        cases tok with
        | nil => simp at hn; omega
        | cons t ts =>
          simp only [List.cons_append, List.cons.injEq] at hw
          obtain ⟨rfl, rfl⟩ := hw
          have hsk : Replacer.write (Manager.replacerArgs ph) (ts ++ w) (n - 1) =
              Replacer.write (Manager.replacerArgs ph) w 0 := by
            rw [write_skip _ _ _ (by simp [hn])]
            simp [hn]
          rw [hsk]
          have hw' := ih w.length (by rw [← hlen]; simp; omega) w rfl
          have := Simultaneous.replace hmem hw'
          simpa using this
      rw [Replacer.write]
      rcases hl : Replacer.lookup (Manager.replacerArgs ph) (c :: cs) false
        with _ | ⟨val, _ | k⟩
      · exact .copy c hcs
      · obtain ⟨tok, hmem, _, hn, _⟩ := lookup_some ph (c :: cs) false val 0 hl
        have htok : tok = [] := List.length_eq_zero.mp hn.symm
        subst htok
        rcases hl2 : Replacer.lookup (Manager.replacerArgs ph) (c :: cs) true
          with _ | ⟨val2, n2⟩
        · have := Simultaneous.replace hmem (Simultaneous.copy c hcs)
          simpa using this
        · obtain ⟨tok2, _, _, hn2, hne2⟩ := lookup_some ph (c :: cs) true val2 n2 hl2
          have hpos2 : 0 < n2 := by
            rw [hn2]; exact List.length_pos.mpr (fun h => hne2 ⟨rfl, h⟩)
          have := Simultaneous.replace hmem (hmatch true val2 n2 hl2 hpos2)
          simpa using this
      · have := hmatch false val (k + 1) hl (by omega)
        simpa using this

end Scan

/-! ## Placeholder substitution in `Translate` -/

section Substitution

/-- A found text is returned through the replacer built from the placeholder
enumeration; for the empty set this is the text itself. -/
theorem translate_found (m : Manager) (D : Language) (locale key text : GoString)
    (ph : P) (hD : m.defaultLang = some D)
    (hf : m.resolve D locale key = (text, true)) :
    m.Translate (.impl locale) key ph =
      (.ok (Replacer.write (Manager.replacerArgs ph) text 0), m) := by
  simp only [Manager.resolve] at hf
  simp only [Manager.Translate, hD, Player.Locale, hf]
  cases ph with
  | nil => simp [Manager.replacerArgs, write_no_args]
  | cons e es => simp [newReplacer_replacerArgs, Replacer.Replace]

/-- The two enumerations of a map with two entries. -/
theorem perm_pair {α : Type} (x y : α) (l : List α) (h : l.Perm [x, y]) :
    l = [x, y] ∨ l = [y, x] := by
  match l, h with
  | [a, b], h =>
    have ha : a ∈ [x, y] := h.subset (by simp)
    rcases List.mem_pair.mp ha with rfl | rfl
    · left
      have := List.Perm.cons_inv h
      rw [List.perm_singleton.mp this]
    · right
      have := List.Perm.cons_inv (h.trans (List.Perm.swap a x []))
      rw [List.perm_singleton.mp this]
  | [], h => simpa using h.length_eq
  | [_], h => simpa using h.length_eq
  | _ :: _ :: _ :: _, h => simpa using h.length_eq

/-- C7: for a found text, what `Translate` returns is a simultaneous
substitution of the text: inserted values are not scanned for tokens.  For the
text "Hello {a}, you are in {b}" and the placeholders "{a}" to "Steve",
"{b}" to "{a}" it returns "Hello Steve, you are in {a}" for every enumeration
order of the placeholder map. -/
theorem translate_substitution_simultaneous (m : Manager) (D : Language)
    (locale key text : GoString) (ph : P)
    (hD : m.defaultLang = some D)
    (hf : m.resolve D locale key = (text, true)) :
    ∃ out, (m.Translate (.impl locale) key ph).1 = .ok out ∧
      Simultaneous ph text out ∧
      (text = bytes "Hello {a}, you are in {b}" →
        ph.Perm [(bytes "{a}", bytes "Steve"), (bytes "{b}", bytes "{a}")] →
        out = bytes "Hello Steve, you are in {a}") := by
  refine ⟨Replacer.write (Manager.replacerArgs ph) text 0, ?_, write_simultaneous ph text, ?_⟩
  · rw [translate_found m D locale key text ph hD hf]
  · intro ht hperm
    subst ht
    rcases perm_pair _ _ _ hperm with rfl | rfl <;> decide

/-- Witness of C7: the text comes from the caller's language; both
enumeration orders of the placeholder map. -/
theorem translate_substitution_simultaneous_witness :
    ((Manager.single (english [(bytes "where", bytes "Hello {a}, you are in {b}")])).Translate
        (.impl (bytes "en_US")) (bytes "where")
        [(bytes "{a}", bytes "Steve"), (bytes "{b}", bytes "{a}")]).1
      = .ok (bytes "Hello Steve, you are in {a}") ∧
    ((Manager.single (english [(bytes "where", bytes "Hello {a}, you are in {b}")])).Translate
        (.impl (bytes "en_US")) (bytes "where")
        [(bytes "{b}", bytes "{a}"), (bytes "{a}", bytes "Steve")]).1
      = .ok (bytes "Hello Steve, you are in {a}") := by
  constructor
  · obtain ⟨out, h1, _, h3⟩ := translate_substitution_simultaneous
      (Manager.single (english [(bytes "where", bytes "Hello {a}, you are in {b}")]))
      (english [(bytes "where", bytes "Hello {a}, you are in {b}")])
      (bytes "en_US") (bytes "where") (bytes "Hello {a}, you are in {b}")
      [(bytes "{a}", bytes "Steve"), (bytes "{b}", bytes "{a}")] rfl (by decide)
    rw [h1, h3 rfl (List.Perm.refl _)]
  · obtain ⟨out, h1, _, h3⟩ := translate_substitution_simultaneous
      (Manager.single (english [(bytes "where", bytes "Hello {a}, you are in {b}")]))
      (english [(bytes "where", bytes "Hello {a}, you are in {b}")])
      (bytes "en_US") (bytes "where") (bytes "Hello {a}, you are in {b}")
      [(bytes "{b}", bytes "{a}"), (bytes "{a}", bytes "Steve")] rfl (by decide)
    rw [h1, h3 rfl (List.Perm.swap _ _ _)]

/-- C8, as stated, fails: in the text "abc" the token "bc" occurs, and with
the placeholders "ab" to "X", "bc" to "Y" `Translate` returns "Xc" in both
enumeration orders; the value "Y" is nowhere in the output. -/
theorem translate_overlapping_tokens_counterexample :
    ((Manager.single (english [(bytes "k", bytes "abc")])).Translate
        (.impl (bytes "en_US")) (bytes "k")
        [(bytes "ab", bytes "X"), (bytes "bc", bytes "Y")]).1 = .ok (bytes "Xc") ∧
    ((Manager.single (english [(bytes "k", bytes "abc")])).Translate
        (.impl (bytes "en_US")) (bytes "k")
        [(bytes "bc", bytes "Y"), (bytes "ab", bytes "X")]).1 = .ok (bytes "Xc") ∧
    bytes "abc" = bytes "a" ++ bytes "bc" ++ [] ∧
    ¬ (bytes "Y" <:+: bytes "Xc") := by
  decide

/-- C8, amended: for a found text and a placeholder set without the empty
token, an occurrence of a token `tok` in the text (`text = u ++ tok ++ w`) is
replaced by the value of `tok`, and the text before it and the text after it
are substituted on their own, when every token occurrence in the text that
starts at or before this one either ends before it or is this one: no earlier
occurrence runs into it and no other token matches at its start.  This holds
for every such occurrence, not only the first. -/
theorem translate_replaces_occurrence (m : Manager) (D : Language)
    (locale key text : GoString) (ph : P) (u tok val w : GoString)
    (hD : m.defaultLang = some D)
    (hf : m.resolve D locale key = (text, true))
    (hwf : GoMap.WF ph)
    (hne : ∀ e ∈ ph, e.1 ≠ [])
    (hmem : (tok, val) ∈ ph)
    (htext : text = u ++ tok ++ w)
    (hfree : ∀ i, i ≤ u.length → ∀ e ∈ ph, e.1 <+: text.drop i →
      i + e.1.length ≤ u.length ∨ (i = u.length ∧ e.1 = tok)) :
    (m.Translate (.impl locale) key ph).1 =
      .ok ((Replacer.mk (Manager.replacerArgs ph)).Replace u ++ val ++
        (Replacer.mk (Manager.replacerArgs ph)).Replace w) := by
  have htok : tok ≠ [] := hne (tok, val) hmem
  have hpos : 0 < tok.length := List.length_pos.mpr htok
  subst htext
  rw [translate_found m D locale key _ ph hD hf, List.append_assoc]
  have h1 := write_append ph hne u (tok ++ w) (fun i hi e he hp => by
    rcases hfree i (Nat.le_of_lt hi) e he (by simpa using hp) with h | ⟨h, _⟩
    · exact h
    · omega)
  have h2 : Replacer.lookup (Manager.replacerArgs ph) (tok ++ w) false =
      some (val, tok.length) := by
    apply lookup_unique ph hwf _ tok val hmem (List.prefix_append _ _)
    intro e he hp
    have hp' : e.1 <+: (u ++ tok ++ w).drop u.length := by simpa using hp
    rcases hfree u.length (Nat.le_refl _) e he hp' with h | ⟨_, h⟩
    · have := List.length_pos.mpr (hne e he)
      omega
    · exact h
  have h3 := write_match _ (tok ++ w) val tok.length h2 hpos (by simp)
  simp only [List.drop_left] at h3
  simp only [Replacer.Replace]
  rw [h1, h3, List.append_assoc]

/-- Witness of C8, amended: the second occurrence of a token, with another
token of the set sharing its first bytes; the output is "X and X!". -/
theorem translate_replaces_occurrence_witness :
    ((Manager.single (english [(bytes "k", bytes "{a} and {a}!")])).Translate
        (.impl (bytes "en_US")) (bytes "k")
        [(bytes "{a}", bytes "X"), (bytes "{ab}", bytes "Y")]).1 =
      .ok (bytes "X and X!") := by
  have h := translate_replaces_occurrence
    (Manager.single (english [(bytes "k", bytes "{a} and {a}!")]))
    (english [(bytes "k", bytes "{a} and {a}!")])
    (bytes "en_US") (bytes "k") (bytes "{a} and {a}!")
    [(bytes "{a}", bytes "X"), (bytes "{ab}", bytes "Y")]
    (bytes "{a} and ") (bytes "{a}") (bytes "X") (bytes "!")
    rfl (by decide) (by decide) (by decide) (by decide) (by decide) (by decide)
  exact h.trans (by decide)

/-- C9: for a found text and a placeholder set none of whose tokens occurs in
the text (the empty set is one), `Translate` returns the text unchanged. -/
theorem translate_no_occurrence (m : Manager) (D : Language)
    (locale key text : GoString) (ph : P)
    (hD : m.defaultLang = some D)
    (hf : m.resolve D locale key = (text, true))
    (hno : ∀ e ∈ ph, ¬ e.1 <:+: text) :
    (m.Translate (.impl locale) key ph).1 = .ok text := by
  rw [translate_found m D locale key text ph hD hf, write_no_occurrence ph text hno]

/-- Witness of C9: the text, found in the default language by a caller of
an unregistered locale, holds braced tokens that the placeholder set does not
know. -/
theorem translate_no_occurrence_witness :
    ((Manager.single (english [(bytes "k", bytes "Hi {name}, see {world}")])).Translate
        (.impl (bytes "fr_FR")) (bytes "k")
        [(bytes "{player}", bytes "Steve"), (bytes "{nam}", bytes "Alex")]).1 =
      .ok (bytes "Hi {name}, see {world}") :=
  translate_no_occurrence
    (Manager.single (english [(bytes "k", bytes "Hi {name}, see {world}")]))
    (english [(bytes "k", bytes "Hi {name}, see {world}")])
    (bytes "fr_FR") (bytes "k") (bytes "Hi {name}, see {world}")
    [(bytes "{player}", bytes "Steve"), (bytes "{nam}", bytes "Alex")]
    rfl (by decide) (by decide)

/-- C10: on a fresh Manager, `Register` of a Language with a non-empty locale
that maps `k` to `t` returns no error, and `Translate` for a caller of that
locale then returns `t` through the replacer of the placeholders (for the
empty set, `t` itself). -/
theorem register_translate_roundtrip (logger : Option Logger) (L : Language)
    (k t : GoString) (ph : P)
    (hloc : L.Locale ≠ [])
    (ht : L.translations.get k = some t) :
    ((NewManager logger).Register (some L)).1 = none ∧
    (((NewManager logger).Register (some L)).2.Translate (.impl L.Locale) k ph).1 =
      .ok ((Replacer.mk (Manager.replacerArgs ph)).Replace t) := by
  have hreg : (NewManager logger).Register (some L) =
      (none, ({ languages := [(L.Locale, L)], defaultLang := some L,
                logger := logger.getD [] } : Manager).log .Info
        "Default language set automatically" [("locale", L.Locale)]) := by
    simp [Manager.Register, NewManager, hloc, GoMap.set]
  rw [hreg]
  refine ⟨rfl, ?_⟩
  rw [translate_found _ L L.Locale k t ph rfl
    (by simp [Manager.resolve, Manager.log, GoMap.get, Language.translation, ht])]
  rfl

/-- Witness of C10: the round trip of the specification yields "Hi Alex". -/
theorem register_translate_roundtrip_witness :
    ((NewManager none).Register (some (NewLanguageFromData (bytes "en_US")
        (bytes "English (US)") [(bytes "greet.hello", bytes "Hi {name}")]))).1 = none ∧
    (((NewManager none).Register (some (NewLanguageFromData (bytes "en_US")
        (bytes "English (US)") [(bytes "greet.hello", bytes "Hi {name}")]))).2.Translate
      (.impl (bytes "en_US")) (bytes "greet.hello") [(bytes "{name}", bytes "Alex")]).1 =
      .ok (bytes "Hi Alex") := by
  have h := register_translate_roundtrip none
    (NewLanguageFromData (bytes "en_US") (bytes "English (US)")
      [(bytes "greet.hello", bytes "Hi {name}")])
    (bytes "greet.hello") (bytes "Hi {name}") [(bytes "{name}", bytes "Alex")]
    (by decide) (by decide)
  exact ⟨h.1, h.2.trans (by decide)⟩

end Substitution

/-! ## Facts about Go maps -/

section Maps

variable {V : Type}

/-- After `m[k] = v` the map holds `v` under `k`. -/
theorem GoMap.get_set_self (m : GoMap V) (k : GoString) (v : V) :
    (m.set k v).get k = some v := by
  induction m with
  | nil => simp [GoMap.set, GoMap.get]
  | cons e es ih =>
    obtain ⟨k', v'⟩ := e
    by_cases h : k' = k
    · simp [GoMap.set, GoMap.get, h]
    · simp [GoMap.set, GoMap.get, h, ih]

/-- The assignment `m[k] = v` leaves the other keys as they are. -/
theorem GoMap.get_set_other (m : GoMap V) (k k' : GoString) (v : V) (h : k' ≠ k) :
    (m.set k v).get k' = m.get k' := by
  induction m with
  | nil => simp [GoMap.set, GoMap.get, Ne.symm h]
  | cons e es ih =>
    obtain ⟨k0, v0⟩ := e
    by_cases h0 : k0 = k
    · subst h0
      simp [GoMap.set, GoMap.get, Ne.symm h]
    · by_cases h1 : k0 = k'
      · subst h1
        simp [GoMap.set, GoMap.get, h0]
      · simp [GoMap.set, GoMap.get, h0, h1, ih]

/-- A lookup misses exactly for the strings that are not a key. -/
theorem GoMap.get_eq_none_iff (m : GoMap V) (k : GoString) :
    m.get k = none ↔ k ∉ GoMap.keys m := by
  induction m with
  | nil => simp [GoMap.get, GoMap.keys]
  | cons e es ih =>
    obtain ⟨k0, v0⟩ := e
    by_cases h0 : k0 = k
    · simp [GoMap.get, GoMap.keys, h0]
    · have hne : ¬ k = k0 := fun h => h0 h.symm
      simp only [GoMap.get, h0, if_false]
      rw [ih]
      simp only [GoMap.keys, List.map_cons, List.mem_cons, not_or]
      tauto

/-- An entry of a map is what the lookup of its key returns. -/
theorem GoMap.get_of_mem (m : GoMap V) (hwf : m.WF) (k : GoString) (v : V)
    (h : (k, v) ∈ m) : m.get k = some v := by
  induction m with
  | nil => simp at h
  | cons e es ih =>
    obtain ⟨k0, v0⟩ := e
    have hnd : k0 ∉ GoMap.keys es ∧ (GoMap.keys es).Nodup := by
      simpa [GoMap.WF, GoMap.keys] using hwf
    rcases List.mem_cons.mp h with heq | hmem
    · obtain ⟨rfl, rfl⟩ := Prod.mk.inj heq
      simp [GoMap.get]
    · have hk : k ∈ GoMap.keys es := List.mem_map.mpr ⟨(k, v), hmem, rfl⟩
      have hne : k0 ≠ k := fun h' => hnd.1 (h' ▸ hk)
      simp [GoMap.get, hne, ih hnd.2 hmem]

/-- What a lookup returns is an entry of the map. -/
theorem GoMap.mem_of_get (m : GoMap V) (k : GoString) (v : V) (h : m.get k = some v) :
    (k, v) ∈ m := by
  induction m with
  | nil => simp [GoMap.get] at h
  | cons e es ih =>
    obtain ⟨k0, v0⟩ := e
    by_cases h0 : k0 = k
    · simp [GoMap.get, h0] at h
      simp [h0, h]
    · simp [GoMap.get, h0] at h
      exact List.mem_cons_of_mem _ (ih h)

/-- After `delete(m, k)` the key `k` is missing. -/
theorem GoMap.get_delete_self (m : GoMap V) (k : GoString) : (m.delete k).get k = none := by
  induction m with
  | nil => simp [GoMap.delete, GoMap.get]
  | cons e es ih =>
    obtain ⟨k0, v0⟩ := e
    by_cases h0 : k0 = k
    · simp [GoMap.delete, h0, ih]
    · simp [GoMap.delete, GoMap.get, h0, ih]

/-- The builtin `delete(m, k)` leaves the other keys as they are. -/
theorem GoMap.get_delete_other (m : GoMap V) (k k' : GoString) (h : k' ≠ k) :
    (m.delete k).get k' = m.get k' := by
  induction m with
  | nil => simp [GoMap.delete, GoMap.get]
  | cons e es ih =>
    obtain ⟨k0, v0⟩ := e
    by_cases h0 : k0 = k
    · subst h0
      simp [GoMap.delete, GoMap.get, Ne.symm h, ih]
    · by_cases h1 : k0 = k'
      · subst h1
        simp [GoMap.delete, GoMap.get, h0]
      · simp [GoMap.delete, GoMap.get, h0, h1, ih]

/-- The keys after `m[k] = v`: those of `m`, and `k`. -/
theorem GoMap.mem_keys_set (m : GoMap V) (k x : GoString) (v : V) :
    x ∈ GoMap.keys (m.set k v) ↔ x = k ∨ x ∈ GoMap.keys m := by
  induction m with
  | nil => simp [GoMap.set, GoMap.keys]
  | cons e es ih =>
    obtain ⟨k0, v0⟩ := e
    have ih' : (∃ y, (x, y) ∈ GoMap.set es k v) ↔ x = k ∨ ∃ y, (x, y) ∈ es := by
      simpa [GoMap.keys] using ih
    by_cases h0 : k0 = k
    · subst h0
      simp [GoMap.set, GoMap.keys]
    · simp only [GoMap.set, h0, if_false, GoMap.keys, List.map_cons, List.mem_cons,
        List.mem_map, Prod.exists, exists_and_right, exists_eq_right]
      rw [ih']
      tauto

/-- The assignment `m[k] = v` keeps the keys distinct. -/
theorem GoMap.wf_set (m : GoMap V) (hwf : m.WF) (k : GoString) (v : V) :
    (m.set k v).WF := by
  induction m with
  | nil => simp [GoMap.set, GoMap.WF, GoMap.keys]
  | cons e es ih =>
    obtain ⟨k0, v0⟩ := e
    have hnd : k0 ∉ GoMap.keys es ∧ (GoMap.keys es).Nodup := by
      simpa [GoMap.WF, GoMap.keys] using hwf
    by_cases h0 : k0 = k
    · subst h0
      simpa [GoMap.set, GoMap.WF, GoMap.keys] using hwf
    · have hk : k0 ∉ GoMap.keys (GoMap.set es k v) := by
        rw [GoMap.mem_keys_set]
        rintro (h | h)
        · exact h0 h
        · exact hnd.1 h
      have := ih hnd.2
      simp only [GoMap.set, h0, if_false]
      exact List.nodup_cons.mpr ⟨hk, this⟩

/-- The assignment `m[k] = v` never leaves the map empty. -/
theorem GoMap.set_ne_nil (m : GoMap V) (k : GoString) (v : V) : m.set k v ≠ [] := by
  cases m with
  | nil => simp [GoMap.set]
  | cons e es =>
    obtain ⟨k0, v0⟩ := e
    by_cases h0 : k0 = k <;> simp [GoMap.set, h0]

end Maps

/-! ## `SetDefault`, `Register`, `Language` and `Languages` -/

section Administration

/-- C11: `SetDefault` of a locale that is not a key of the registry returns
an error and leaves the Manager, default and registry included, as it was. -/
theorem setDefault_unregistered (m : Manager) (locale : GoString)
    (h : locale ∉ GoMap.keys m.languages) :
    m.SetDefault locale = (some (.unregistered locale), m) := by
  have hget : m.languages.get locale = none := (GoMap.get_eq_none_iff _ _).mpr h
  simp [Manager.SetDefault, hget]

/-- Witness of C11: a default is set and stays. -/
theorem setDefault_unregistered_witness :
    (Manager.single (english [(bytes "hi", bytes "Hello")])).SetDefault (bytes "fr_FR") =
      (some (.unregistered (bytes "fr_FR")),
        Manager.single (english [(bytes "hi", bytes "Hello")])) :=
  setDefault_unregistered (Manager.single (english [(bytes "hi", bytes "Hello")]))
    (bytes "fr_FR") (by decide)

/-- C12: `SetDefault` of a registered locale returns no error, makes the
Language registered under that locale the default and changes nothing else;
afterwards `Translate` for a caller of an unregistered locale looks the key
up in that Language. -/
theorem setDefault_registered (m : Manager) (locale : GoString) (L : Language)
    (h : m.languages.get locale = some L) :
    m.SetDefault locale = (none, { m with defaultLang := some L }) ∧
    ∀ (other key : GoString) (ph : P), m.languages.get other = none →
      ((m.SetDefault locale).2.Translate (.impl other) key ph).1 =
        .ok (match L.translations.get key with
          | some t => (Replacer.mk (Manager.replacerArgs ph)).Replace t
          | none => key) := by
  have hset : m.SetDefault locale = (none, { m with defaultLang := some L }) := by
    simp [Manager.SetDefault, h]
  refine ⟨hset, ?_⟩
  intro other key ph hother
  rw [hset]
  cases ht : L.translations.get key with
  | none =>
    simp [Manager.Translate, Player.Locale, hother, Language.translation, ht]
  | some t =>
    rw [translate_found _ L other key t ph rfl
      (by simp [Manager.resolve, hother, Language.translation, ht])]
    rfl

/-- Witness of C12: the second registered Language becomes the default and
serves a caller of an unregistered locale. -/
theorem setDefault_registered_witness :
    (((NewManager none).run
        [.Register (some (english [(bytes "hi", bytes "Hello")])),
         .Register (some ⟨bytes "es_ES", bytes "Spanish", [(bytes "hi", bytes "Hola")]⟩),
         .SetDefault (bytes "es_ES")]).Translate
      (.impl (bytes "fr_FR")) (bytes "hi") []).1 = .ok (bytes "Hola") := by
  have h := (setDefault_registered
    ((NewManager none).run
      [.Register (some (english [(bytes "hi", bytes "Hello")])),
       .Register (some ⟨bytes "es_ES", bytes "Spanish", [(bytes "hi", bytes "Hola")]⟩)])
    (bytes "es_ES") ⟨bytes "es_ES", bytes "Spanish", [(bytes "hi", bytes "Hola")]⟩
    (by decide)).2 (bytes "fr_FR") (bytes "hi") [] (by decide)
  exact h.trans (by decide)

/-- C13: `Register` returns an error exactly for the nil Language and for a
Language with the empty locale; then the Manager is as it was.  A non-empty
locale is accepted also when `IsMinecraftLocale` does not recognise it. -/
theorem register_error_iff (m : Manager) (lang : Option Language) :
    ((m.Register lang).1 ≠ none ↔ (lang = none ∨ ∃ l, lang = some l ∧ l.Locale = [])) ∧
    ((m.Register lang).1 ≠ none → (m.Register lang).2 = m) ∧
    (∀ l, lang = some l → l.Locale ≠ [] → IsMinecraftLocale l.Locale = false →
      (m.Register lang).1 = none) := by
  have hiff : (m.Register lang).1 ≠ none ↔
      (lang = none ∨ ∃ l, lang = some l ∧ l.Locale = []) := by
    cases lang with
    | none => simp [Manager.Register]
    | some l =>
      by_cases hl : l.Locale = []
      · simp [Manager.Register, hl]
      · cases hd : m.defaultLang <;> simp [Manager.Register, hl, hd]
  refine ⟨hiff, register_error_state m lang, ?_⟩
  intro l hlang hloc _
  by_contra hcon
  rcases hiff.mp hcon with h | ⟨l', h, hl'⟩
  · simp [hlang] at h
  · rw [hlang] at h
    exact hloc ((Option.some.inj h) ▸ hl')

/-- Witness of C13: the locale "xx_XX" is not a recognised one and is
registered; the empty locale is refused. -/
theorem register_error_iff_witness :
    IsMinecraftLocale (bytes "xx_XX") = false ∧
    ((NewManager none).Register (some ⟨bytes "xx_XX", bytes "Unknown", []⟩)).1 = none ∧
    ((NewManager none).Register (some ⟨bytes "", bytes "Anonymous", []⟩)).1 ≠ none ∧
    ((NewManager none).Register (some ⟨bytes "", bytes "Anonymous", []⟩)).2 = NewManager none :=
  ⟨by decide,
    (register_error_iff (NewManager none) (some ⟨bytes "xx_XX", bytes "Unknown", []⟩)).2.2
      ⟨bytes "xx_XX", bytes "Unknown", []⟩ rfl (by decide) (by decide),
    (register_error_iff (NewManager none) (some ⟨bytes "", bytes "Anonymous", []⟩)).1.mpr
      (Or.inr ⟨_, rfl, by decide⟩),
    (register_error_iff (NewManager none) (some ⟨bytes "", bytes "Anonymous", []⟩)).2.1
      (by decide)⟩

/-- The state after a `Register` call that is accepted. -/
theorem register_languages (m : Manager) (L : Language) (hloc : L.Locale ≠ []) :
    (m.Register (some L)).1 = none ∧
    (m.Register (some L)).2.languages = m.languages.set L.Locale L := by
  cases hd : m.defaultLang <;> simp [Manager.Register, hloc, hd, Manager.log]

/-- C14: after `Register` of a Language `L` with a non-empty locale, which
returns no error, `Language(L.locale)` returns `L` itself and true, whatever
was registered under that locale before, and `Language(x)` for every other
locale returns what it returned before. -/
theorem register_replaces_entry (m : Manager) (L : Language) (hloc : L.Locale ≠ []) :
    (m.Register (some L)).1 = none ∧
    (m.Register (some L)).2.Language L.Locale = (some L, true) ∧
    ∀ x, x ≠ L.Locale → (m.Register (some L)).2.Language x = m.Language x := by
  obtain ⟨herr, hlangs⟩ := register_languages m L hloc
  refine ⟨herr, ?_, ?_⟩
  · simp [Manager.Language, hlangs, GoMap.get_set_self]
  · intro x hx
    simp [Manager.Language, hlangs, GoMap.get_set_other _ _ _ _ hx]

/-- Witness of C14: the locale "en_US" is registered again with other
translations; the new Language is returned, with its own map only. -/
theorem register_replaces_entry_witness :
    ((Manager.single (english [(bytes "hi", bytes "Hello"), (bytes "bye", bytes "Bye")])).Register
        (some (english [(bytes "hi", bytes "Howdy")]))).2.Language (bytes "en_US") =
      (some (english [(bytes "hi", bytes "Howdy")]), true) :=
  (register_replaces_entry
    (Manager.single (english [(bytes "hi", bytes "Hello"), (bytes "bye", bytes "Bye")]))
    (english [(bytes "hi", bytes "Howdy")]) (by decide)).2.1

/-- The slice `Languages` builds holds the values of the registry. -/
theorem languages_eq_values (m : Manager) : m.Languages = m.languages.map Prod.snd := by
  have h : ∀ (es : GoMap Language) (acc : List Language),
      es.foldl (fun langs e => langs ++ [e.2]) acc = acc ++ es.map Prod.snd := by
    intro es
    induction es with
    | nil => simp
    | cons e es ih => intro acc; simp [ih]
  simpa [Manager.Languages] using h m.languages []

/-- In a state reached from a fresh Manager the keys of the registry are
distinct and every Language is stored under its own locale. -/
theorem run_registry_invariant (logger : Option Logger) (calls : List Call) :
    GoMap.WF ((NewManager logger).run calls).languages ∧
    ∀ e ∈ ((NewManager logger).run calls).languages, e.2.Locale = e.1 := by
  have hstep : ∀ (m : Manager) (c : Call),
      (GoMap.WF m.languages ∧ ∀ e ∈ m.languages, e.2.Locale = e.1) →
      (GoMap.WF (m.step c).languages ∧ ∀ e ∈ (m.step c).languages, e.2.Locale = e.1) := by
    intro m c ⟨hwf, hkey⟩
    cases c with
    | SetDefault locale =>
      cases hg : m.languages.get locale <;>
        simp [Manager.step, Manager.SetDefault, hg, hwf] <;> exact fun a b h => hkey (a, b) h
    | Register lang =>
      cases lang with
      | none => exact ⟨hwf, hkey⟩
      | some L =>
        by_cases hloc : L.Locale = []
        · simpa [Manager.step, Manager.Register, hloc] using ⟨hwf, fun a b h => hkey (a, b) h⟩
        · have hl := (register_languages m L hloc).2
          simp only [Manager.step, hl]
          refine ⟨GoMap.wf_set _ hwf _ _, ?_⟩
          intro e he
          by_cases hk : e.1 = L.Locale
          · have := GoMap.get_of_mem _ (GoMap.wf_set _ hwf L.Locale L) e.1 e.2 he
            rw [hk, GoMap.get_set_self] at this
            rw [hk, ← Option.some.inj this]
          · have := GoMap.get_of_mem _ (GoMap.wf_set _ hwf L.Locale L) e.1 e.2 he
            rw [GoMap.get_set_other _ _ _ _ hk] at this
            exact hkey e (GoMap.mem_of_get _ _ _ this)
  suffices H : ∀ (m : Manager), (GoMap.WF m.languages ∧ ∀ e ∈ m.languages, e.2.Locale = e.1) →
      (GoMap.WF (m.run calls).languages ∧ ∀ e ∈ (m.run calls).languages, e.2.Locale = e.1) by
    apply H
    exact ⟨List.nodup_nil, fun e he => by simp [NewManager] at he⟩
  induction calls with
  | nil => intro m h; exact h
  | cons c cs ih =>
    intro m h
    have := ih (m.step c) (hstep m c h)
    simpa [Manager.run] using this

/-- C15: in every state reached from a fresh Manager, `Languages` returns one
Language for every key of the registry: its length is the number of
registered locales, the locales of its elements are the keys of the registry,
each once, and a Language is in it exactly when it is registered under some
locale.  For a fresh Manager it is empty. -/
theorem languages_snapshot (logger : Option Logger) (calls : List Call) :
    (((NewManager logger).run calls).Languages.length =
      (GoMap.keys ((NewManager logger).run calls).languages).length) ∧
    (((NewManager logger).run calls).Languages.map Language.Locale =
      GoMap.keys ((NewManager logger).run calls).languages) ∧
    (((NewManager logger).run calls).Languages.map Language.Locale).Nodup ∧
    (∀ L, L ∈ ((NewManager logger).run calls).Languages ↔
      ((NewManager logger).run calls).Language L.Locale = (some L, true)) ∧
    (NewManager logger).Languages = [] := by
  obtain ⟨hwf, hkey⟩ := run_registry_invariant logger calls
  generalize (NewManager logger).run calls = m at hwf hkey
  have hmap : m.Languages.map Language.Locale = GoMap.keys m.languages := by
    rw [languages_eq_values, GoMap.keys, List.map_map]
    exact List.map_congr_left (fun e he => hkey e he)
  refine ⟨?_, hmap, hmap ▸ hwf, ?_, rfl⟩
  · rw [languages_eq_values]; simp [GoMap.keys]
  · intro L
    rw [languages_eq_values]
    constructor
    · intro hL
      obtain ⟨e, he, rfl⟩ := List.mem_map.mp hL
      have hg := GoMap.get_of_mem _ hwf e.1 e.2 he
      rw [hkey e he]
      simp [Manager.Language, hg]
    · intro hL
      cases hg : m.languages.get L.Locale with
      | none => simp [Manager.Language, hg] at hL
      | some L' =>
        simp [Manager.Language, hg] at hL
        subst hL
        exact List.mem_map.mpr ⟨(_, L'), GoMap.mem_of_get _ _ _ hg, rfl⟩

/-- Witness of C15: the locale "en_US" is registered twice and contributes
its latest Language only. -/
theorem languages_snapshot_witness :
    ((NewManager none).run
      [.Register (some (english [(bytes "hi", bytes "Hello")])),
       .Register (some ⟨bytes "es_ES", bytes "Spanish", [(bytes "hi", bytes "Hola")]⟩),
       .Register (some (english [(bytes "hi", bytes "Howdy")]))]).Languages.length = 2 ∧
    ((NewManager none).run
      [.Register (some (english [(bytes "hi", bytes "Hello")])),
       .Register (some ⟨bytes "es_ES", bytes "Spanish", [(bytes "hi", bytes "Hola")]⟩),
       .Register (some (english [(bytes "hi", bytes "Howdy")]))]).Languages =
      [english [(bytes "hi", bytes "Howdy")],
       ⟨bytes "es_ES", bytes "Spanish", [(bytes "hi", bytes "Hola")]⟩] :=
  ⟨(languages_snapshot none
      [.Register (some (english [(bytes "hi", bytes "Hello")])),
       .Register (some ⟨bytes "es_ES", bytes "Spanish", [(bytes "hi", bytes "Hola")]⟩),
       .Register (some (english [(bytes "hi", bytes "Howdy")]))]).1.trans (by decide),
    by decide⟩

/-- C17, evaluated: after two Languages of the locale "en_US" are registered
on a fresh Manager, the default language is the first one, not the second,
and the fallback for a caller of an unregistered locale resolves the key
through the first one's map ("Hello"), while the registry serves a caller of
"en_US" from the second one ("Howdy"). -/
theorem default_stale_after_reregistration :
    (((NewManager none).run
      [.Register (some (english [(bytes "hi", bytes "Hello")])),
       .Register (some (english [(bytes "hi", bytes "Howdy")]))]).defaultLang
      = some (english [(bytes "hi", bytes "Hello")])) ∧
    (english [(bytes "hi", bytes "Hello")] ≠ english [(bytes "hi", bytes "Howdy")]) ∧
    ((((NewManager none).run
      [.Register (some (english [(bytes "hi", bytes "Hello")])),
       .Register (some (english [(bytes "hi", bytes "Howdy")]))]).Translate
        (.impl (bytes "fr_FR")) (bytes "hi") []).1 = .ok (bytes "Hello")) ∧
    ((((NewManager none).run
      [.Register (some (english [(bytes "hi", bytes "Hello")])),
       .Register (some (english [(bytes "hi", bytes "Howdy")]))]).Translate
        (.impl (bytes "en_US")) (bytes "hi") []).1 = .ok (bytes "Howdy")) := by
  decide

end Administration

/-! ## Loading a language file -/

section Loading

/-- The empty string is not a recognised locale. -/
theorem isMinecraftLocale_ne_nil (locale : GoString) (h : IsMinecraftLocale locale = true) :
    locale ≠ [] := by
  rintro rfl
  exact absurd h (by decide)

/-- C18: when the file is read, the stem of its name is a recognised locale
and the decoder of its extension yields the mapping `m`, `LoadLanguageFile`
fails if `m` has no "language.name" entry; otherwise it returns a Language
whose name is that entry, whose locale is the stem and whose translations are
`m` without the key "language.name": that key is missing from them, every
other key is mapped as in `m`, and a Manager that holds this Language alone
does not find "language.name". -/
theorem load_after_decode (host : Host) (path data : GoString) (m : GoMap GoString)
    (hread : host.readFile path = .ok data)
    (hloc : IsMinecraftLocale (strings.TrimSuffix (filepath.Base path) (filepath.Ext path))
      = true)
    (hdec : (filepath.Ext path = bytes ".json" ∧ host.jsonUnmarshal data = .ok m) ∨
      ((filepath.Ext path = bytes ".yml" ∨ filepath.Ext path = bytes ".yaml") ∧
        host.yamlUnmarshal data = .ok m)) :
    (m.get (bytes "language.name") = none →
      LoadLanguageFile host path = .error (.missingName path)) ∧
    (∀ n, m.get (bytes "language.name") = some n →
      ∃ L, LoadLanguageFile host path = .ok L ∧
        L.Name = n ∧
        L.Locale = strings.TrimSuffix (filepath.Base path) (filepath.Ext path) ∧
        L.translations = m.delete (bytes "language.name") ∧
        L.translations.get (bytes "language.name") = none ∧
        (∀ k, k ≠ bytes "language.name" → L.translations.get k = m.get k) ∧
        ∀ (logger : Option Logger) (ph : P),
          ((NewManager logger).Register (some L)).2.Translate (.impl L.Locale)
              (bytes "language.name") ph =
            (.ok (bytes "language.name"),
              ((NewManager logger).Register (some L)).2.log .Warn "Translation key not found"
                [("key", bytes "language.name"), ("fallback_locale", L.Locale)])) := by
  generalize hst : strings.TrimSuffix (filepath.Base path) (filepath.Ext path) = locale
    at hloc ⊢
  have hload : LoadLanguageFile host path = LoadLanguageFile.finish path locale m := by
    rcases hdec with ⟨hext, hm⟩ | ⟨hext, hm⟩
    · simp only [LoadLanguageFile, hread, hst, hloc]
      simp [hext, hm]
    · have hnj : filepath.Ext path ≠ bytes ".json" := by
        rcases hext with h | h <;> rw [h] <;> decide
      simp only [LoadLanguageFile, hread, hst, hloc]
      simp [hnj, hext, hm]
  rw [hload]
  constructor
  · intro hnone
    simp [LoadLanguageFile.finish, hnone]
  · intro n hn
    refine ⟨NewLanguageFromData locale n (m.delete (bytes "language.name")), ?_, rfl, rfl,
      rfl, GoMap.get_delete_self _ _, fun k hk => GoMap.get_delete_other _ _ _ hk, ?_⟩
    · simp [LoadLanguageFile.finish, hn]
    · intro logger ph
      have hne := isMinecraftLocale_ne_nil _ hloc
      simp [Manager.Register, NewManager, NewLanguageFromData, Language.Locale, hne,
        Manager.Translate, Player.Locale, Manager.log, GoMap.set, GoMap.get,
        Language.translation, GoMap.get_delete_self]

/-- Witness of C18: a JSON file "lang/en_US.json" that decodes to two
entries. -/
theorem load_after_decode_witness :
    LoadLanguageFile
        ⟨fun _ => .ok [], fun _ => .ok [(bytes "language.name", bytes "English (US)"),
          (bytes "hi", bytes "Hello")], fun _ => .error "not YAML"⟩
        (bytes "lang/en_US.json") =
      .ok (english [(bytes "hi", bytes "Hello")]) := by
  obtain ⟨L, hL, hname, hlocale, htr, _⟩ := (load_after_decode
    ⟨fun _ => .ok [], fun _ => .ok [(bytes "language.name", bytes "English (US)"),
      (bytes "hi", bytes "Hello")], fun _ => .error "not YAML"⟩
    (bytes "lang/en_US.json") [] [(bytes "language.name", bytes "English (US)"),
      (bytes "hi", bytes "Hello")] rfl (by decide) (Or.inl ⟨by decide, rfl⟩)).2
    (bytes "English (US)") (by decide)
  rw [hL]
  exact hL.symm.trans (by decide)

end Loading

/-! ## Enumeration order of the placeholder map -/

section Order

/-- The scan depends on the argument list through the lookup only. -/
theorem write_congr (a b : List GoString)
    (h : ∀ s ig, Replacer.lookup a s ig = Replacer.lookup b s ig) (s : GoString) (k : Nat) :
    Replacer.write a s k = Replacer.write b s k := by
  induction s generalizing k with
  | nil => rw [Replacer.write, Replacer.write, h]
  | cons c cs ih =>
    cases k with
    | succ k => rw [Replacer.write, Replacer.write, ih]
    | zero =>
      rw [Replacer.write, Replacer.write, h (c :: cs) false, h (c :: cs) true]
      simp only [ih]

/-- When no token is a prefix of another token, at most one token is a prefix
of a string, and the lookup does not depend on the enumeration order. -/
theorem lookup_perm (ph ph' : P) (hperm : ph.Perm ph') (hwf : GoMap.WF ph)
    (hpf : ∀ e ∈ ph, ∀ e' ∈ ph, e.1 <+: e'.1 → e.1 = e'.1) (s : GoString) (ig : Bool) :
    Replacer.lookup (Manager.replacerArgs ph) s ig =
      Replacer.lookup (Manager.replacerArgs ph') s ig := by
  rcases hl : Replacer.lookup (Manager.replacerArgs ph) s ig with _ | ⟨val, n⟩
  · rcases hl' : Replacer.lookup (Manager.replacerArgs ph') s ig with _ | ⟨val', n'⟩
    · rfl
    · obtain ⟨tok', hmem', hpre', _, hnot'⟩ := lookup_some ph' s ig val' n' hl'
      have := lookup_none ph s ig hl (tok', val') (hperm.mem_iff.mpr hmem') hpre'
      exact absurd this hnot'
  · obtain ⟨tok, hmem, hpre, hn, hnot⟩ := lookup_some ph s ig val n hl
    rcases hl' : Replacer.lookup (Manager.replacerArgs ph') s ig with _ | ⟨val', n'⟩
    · have := lookup_none ph' s ig hl' (tok, val) (hperm.mem_iff.mp hmem) hpre
      exact absurd this hnot
    · obtain ⟨tok', hmem', hpre', hn', _⟩ := lookup_some ph' s ig val' n' hl'
      have hmem'' : (tok', val') ∈ ph := hperm.mem_iff.mpr hmem'
      have htok : tok = tok' := by
        rcases List.prefix_or_prefix_of_prefix hpre hpre' with h | h
        · exact hpf _ hmem _ hmem'' h
        · exact (hpf _ hmem'' _ hmem h).symm
      subst htok
      rw [GoMap.value_unique ph hwf tok val val' hmem hmem'', hn, hn']

/-- C19: for a found text and a placeholder map in which no token is empty
and no token is a prefix of a different token, `Translate` returns the same
for every order in which the entries of the map are enumerated. -/
theorem translate_order_independent (m : Manager) (D : Language)
    (locale key text : GoString) (ph ph' : P)
    (hD : m.defaultLang = some D)
    (hf : m.resolve D locale key = (text, true))
    (hperm : ph.Perm ph')
    (hwf : GoMap.WF ph)
    (_hne : ∀ e ∈ ph, e.1 ≠ [])
    (hpf : ∀ e ∈ ph, ∀ e' ∈ ph, e.1 <+: e'.1 → e.1 = e'.1) :
    m.Translate (.impl locale) key ph = m.Translate (.impl locale) key ph' := by
  rw [translate_found m D locale key text ph hD hf,
    translate_found m D locale key text ph' hD hf,
    write_congr _ _ (lookup_perm ph ph' hperm hwf hpf) text 0]

/-- Witness of C19: two tokens that share their first bytes, in both orders. -/
theorem translate_order_independent_witness :
    (Manager.single (english [(bytes "k", bytes "{ab} meets {ac}")])).Translate
        (.impl (bytes "en_US")) (bytes "k")
        [(bytes "{ab}", bytes "Steve"), (bytes "{ac}", bytes "Alex")] =
    (Manager.single (english [(bytes "k", bytes "{ab} meets {ac}")])).Translate
        (.impl (bytes "en_US")) (bytes "k")
        [(bytes "{ac}", bytes "Alex"), (bytes "{ab}", bytes "Steve")] :=
  translate_order_independent
    (Manager.single (english [(bytes "k", bytes "{ab} meets {ac}")]))
    (english [(bytes "k", bytes "{ab} meets {ac}")])
    (bytes "en_US") (bytes "k") (bytes "{ab} meets {ac}")
    [(bytes "{ab}", bytes "Steve"), (bytes "{ac}", bytes "Alex")]
    [(bytes "{ac}", bytes "Alex"), (bytes "{ab}", bytes "Steve")]
    rfl (by decide) (List.Perm.swap _ _ _) (by decide) (by decide) (by decide)

end Order

/-! ## The default language and the registry -/

section Reachable

/-- One call leaves the registry empty exactly when it was empty and the call
is not an accepted `Register`. -/
theorem step_languages_nil (m : Manager) (c : Call) :
    (m.step c).languages = [] ↔
      m.languages = [] ∧ ∀ x, c = .Register x → (m.Register x).1 ≠ none := by
  cases c with
  | SetDefault locale =>
    cases hg : m.languages.get locale <;> simp [Manager.step, Manager.SetDefault, hg]
  | Register lang =>
    by_cases herr : (m.Register lang).1 = none
    · have hne : (m.Register lang).2.languages ≠ [] := by
        cases lang with
        | none => simp [Manager.Register] at herr
        | some L =>
          by_cases hloc : L.Locale = []
          · simp [Manager.Register, hloc] at herr
          · rw [(register_languages m L hloc).2]
            exact GoMap.set_ne_nil _ _ _
      simp [Manager.step, hne, herr]
    · rw [Manager.step, register_error_state m lang herr]
      constructor
      · intro h
        refine ⟨h, ?_⟩
        intro x hx
        cases hx
        exact herr
      · exact fun h => h.1

/-- One call keeps the equivalence between an unset default and an empty
registry. -/
theorem step_default_iff (m : Manager) (c : Call)
    (h : m.defaultLang = none ↔ m.languages = []) :
    (m.step c).defaultLang = none ↔ (m.step c).languages = [] := by
  cases c with
  | SetDefault locale =>
    cases hg : m.languages.get locale with
    | none => simpa [Manager.step, Manager.SetDefault, hg] using h
    | some L =>
      have hne : m.languages ≠ [] := by
        intro hnil
        rw [hnil] at hg
        simp [GoMap.get] at hg
      simp [Manager.step, Manager.SetDefault, hg, hne]
  | Register lang =>
    by_cases herr : (m.Register lang).1 = none
    · cases lang with
      | none => simp [Manager.Register] at herr
      | some L =>
        by_cases hloc : L.Locale = []
        · simp [Manager.Register, hloc] at herr
        · have hne : m.languages.set L.Locale L ≠ [] := GoMap.set_ne_nil _ _ _
          cases hd : m.defaultLang <;>
            simp [Manager.step, Manager.Register, hloc, hd, Manager.log, hne]
    · rw [Manager.step, register_error_state m lang herr]
      exact h

/-- The two facts along a sequence of calls from any state. -/
theorem run_default_iff (m : Manager) (calls : List Call)
    (h : m.defaultLang = none ↔ m.languages = []) :
    ((m.run calls).defaultLang = none ↔ (m.run calls).languages = []) ∧
    ((m.run calls).languages = [] ↔
      m.languages = [] ∧ ∀ x, Call.Register x ∈ calls → (m.Register x).1 ≠ none) := by
  induction calls generalizing m with
  | nil => simpa [Manager.run] using h
  | cons c cs ih =>
    obtain ⟨h1, h2⟩ := ih (m.step c) (step_default_iff m c h)
    have hrun : m.run (c :: cs) = (m.step c).run cs := rfl
    rw [hrun]
    refine ⟨h1, ?_⟩
    rw [h2, step_languages_nil]
    constructor
    · rintro ⟨⟨hnil, hc⟩, hcs⟩
      refine ⟨hnil, ?_⟩
      intro x hx
      rcases List.mem_cons.mp hx with rfl | hmem
      · exact hc x rfl
      · rw [register_error_indep m (m.step c) x]
        exact hcs x hmem
    · rintro ⟨hnil, hall⟩
      refine ⟨⟨hnil, fun x hx => hall x (hx ▸ List.mem_cons_self _ _)⟩, ?_⟩
      intro x hx
      rw [register_error_indep (m.step c) m x]
      exact hall x (List.mem_cons_of_mem _ hx)

/-- With a default language set, `Translate` does not log at error level. -/
theorem translate_with_default_log (m : Manager) (D : Language) (p : Player)
    (key : GoString) (ph : P) (hD : m.defaultLang = some D) :
    (m.Translate p key ph).2 = m ∨
    (m.Translate p key ph).2 = m.log .Warn "Translation key not found"
      [("key", key), ("fallback_locale", D.Locale)] := by
  cases p with
  | nil => left; simp [Manager.Translate, hD, Player.Locale]
  | impl locale =>
    cases hr : (m.resolve D locale key).2 with
    | false =>
      right
      simp only [Manager.Translate, hD, Player.Locale]
      change (if (!(m.resolve D locale key).2) = true then _ else _ :
        Except Panic GoString × Manager).2 = _
      rw [hr]
      rfl
    | true =>
      left
      have hf : m.resolve D locale key = ((m.resolve D locale key).1, true) := by
        rw [← hr]
      rw [translate_found m D locale key _ ph hD hf]

/-- C20: in every state reached from a fresh Manager by `Register` and
`SetDefault` calls, the default language is unset exactly when the registry
is empty, which is exactly when no `Register` call of the sequence was
accepted; and `Translate` takes its branch "no default language configured"
(it returns the key and logs at error level) exactly in that case. -/
theorem default_unset_iff_registry_empty (logger : Option Logger) (calls : List Call) :
    (((NewManager logger).run calls).defaultLang = none ↔
      ((NewManager logger).run calls).languages = []) ∧
    (((NewManager logger).run calls).languages = [] ↔
      ∀ x, Call.Register x ∈ calls → ((NewManager logger).Register x).1 ≠ none) ∧
    (∀ (p : Player) (key : GoString) (ph : P),
      ((NewManager logger).run calls).Translate p key ph =
          (.ok key, ((NewManager logger).run calls).log .Error
            "Translation failed: no default language configured" [("key", key)]) ↔
        ((NewManager logger).run calls).languages = []) := by
  obtain ⟨h1, h2⟩ := run_default_iff (NewManager logger) calls (by simp [NewManager])
  refine ⟨h1, ?_, ?_⟩
  · rw [h2]; simp [NewManager]
  · intro p key ph
    rw [← h1]
    generalize (NewManager logger).run calls = m
    constructor
    · intro ht
      cases hd : m.defaultLang with
      | none => rfl
      | some D =>
        exfalso
        have hlog : (m.Translate p key ph).2.logger = m.logger ++
            [{ level := .Error, msg := "Translation failed: no default language configured",
               attrs := [("key", key)] }] := by
          rw [ht]; rfl
        rcases translate_with_default_log m D p key ph hd with h | h
        · rw [h] at hlog
          have := congrArg List.length hlog
          simp at this
        · rw [h] at hlog
          simp [Manager.log] at hlog
    · intro hd
      simp [Manager.Translate, hd]

/-- Witness of C20: refused `Register` calls and a failing `SetDefault` leave
the default unset and the registry empty; one accepted `Register` sets both. -/
theorem default_unset_iff_registry_empty_witness :
    ((NewManager none).run
      [.Register none, .SetDefault (bytes "en_US"),
       .Register (some ⟨bytes "", bytes "Anonymous", []⟩)]).defaultLang = none ∧
    ((NewManager none).run
      [.Register none, .SetDefault (bytes "en_US"),
       .Register (some (english []))]).defaultLang ≠ none :=
  ⟨(default_unset_iff_registry_empty none
      [.Register none, .SetDefault (bytes "en_US"),
       .Register (some ⟨bytes "", bytes "Anonymous", []⟩)]).1.mpr (by decide),
    fun h => absurd ((default_unset_iff_registry_empty none
      [.Register none, .SetDefault (bytes "en_US"),
       .Register (some (english []))]).1.mp h) (by decide)⟩

end Reachable

end Lang
